import Mathlib

/-!
Verification of the CuTe-inspired layout algebra in
`torch/distributed/_mesh_layout.py` (`_MeshLayout`).

A layout pairs a shape tree with a stride tree of non-negative integers.
The operations studied here are `member_ranks`, `global_ranks`,
`check_non_overlap`, construction validation (`__post_init__`), and
`to_remapping_tensor`, all translated directly from the source.  The
helpers `coalesce` and `complement` are imported by the source from
`torch.distributed._pycute`, whose code is not part of this tree; they
are modelled from the specification (sections 4.2 and 4.4) and each such
definition says so in its doc comment.
-/

/-- Nested integer tuple, mirroring the `IntTuple` values (an `int` leaf or
a tuple of nested `IntTuple`s) used for shapes and strides. -/
inductive IntTuple where
  | leaf : Nat → IntTuple
  | node : List IntTuple → IntTuple

mutual

/-- Translation of `pycute.flatten` restricted to `IntTuple`: the in-order
list of integer leaves. -/
def flattenT : IntTuple → List Nat
  | .leaf n => [n]
  | .node ts => flattenTList ts

def flattenTList : List IntTuple → List Nat
  | [] => []
  | t :: ts => flattenT t ++ flattenTList ts

end

/-- Translation of `pycute.is_tuple` on an `IntTuple` value: true exactly on
tuple (node) values. -/
def isTupleT : IntTuple → Bool
  | .leaf _ => false
  | .node _ => true

mutual

/-- Structural agreement of two trees: leaves face leaves and nodes face
nodes with the same arity, recursively (the tree-shape relation the spec
talks about for construction). -/
def sameShape : IntTuple → IntTuple → Bool
  | .leaf _, .leaf _ => true
  | .node ts, .node us => sameShapeList ts us
  | _, _ => false

def sameShapeList : List IntTuple → List IntTuple → Bool
  | [], [] => true
  | t :: ts, u :: us => sameShape t u && sameShapeList ts us
  | _, _ => false

end

/-- Embedding of the `_MeshLayout` dataclass: a shape tree and a stride
tree. -/
structure MeshLayout where
  shape : IntTuple
  stride : IntTuple

/-- Translation of `_MeshLayout.__post_init__`: construction fails only when
both `shape` and `stride` are tuples whose flattened lengths differ.  (The
`TypeError` branches of the source cannot fire here because every
`IntTuple` is an int or a tuple by construction.) -/
def mkMeshLayout (shape stride : IntTuple) : Option MeshLayout :=
  if isTupleT shape ∧ isTupleT stride ∧ (flattenT shape).length ≠ (flattenT stride).length then
    none
  else
    some ⟨shape, stride⟩

/-- Translation of `flatten(self.shape)` as used throughout the source. -/
def sizesOf (L : MeshLayout) : List Nat := flattenT L.shape

/-- Translation of `flatten(self.stride)` as used throughout the source. -/
def stridesOf (L : MeshLayout) : List Nat := flattenT L.stride

/-- Translation of the `sizes_and_strides` property:
`zip(flatten(self.shape), flatten(self.stride))`. -/
def sizesAndStrides (L : MeshLayout) : List (Nat × Nat) :=
  (sizesOf L).zip (stridesOf L)

/-- Translation of `_MeshLayout.numel`: `math.prod(flatten(self.shape))`. -/
def numel (L : MeshLayout) : Nat := (sizesOf L).prod

/-- Layouts whose flattened shape and stride have the same length, the
invariant the spec's data model demands of every constructed layout. -/
def validL (L : MeshLayout) : Prop :=
  (sizesOf L).length = (stridesOf L).length

/-- Translation of `itertools.product(*(range(s) for s in sizes))`: all
coordinate lists in row-major order, leftmost coordinate slowest. -/
def prodRanges : List Nat → List (List Nat)
  | [] => [[]]
  | s :: rest => (List.range s).flatMap fun c => (prodRanges rest).map fun cs => c :: cs

/-- Translation of `sum(c * s for c, s in zip(coord, strides))` (Python's
`zip` truncates to the shorter list). -/
def dotZip : List Nat → List Nat → Nat
  | c :: cs, s :: ss => c * s + dotZip cs ss
  | _, _ => 0

/-- Translation of `_MeshLayout.member_ranks`. -/
def memberRanks (L : MeshLayout) : List Nat :=
  (prodRanges (sizesOf L)).map fun coord => dotZip coord (stridesOf L)

/-- Translation of the loop body of `_MeshLayout.check_non_overlap` with its
`-1` sentinels for the previous span and previous stride. -/
def checkLoop : Int → Int → List (Nat × Nat) → Bool
  | _, _, [] => true
  | prevSpan, prevStride, (size, stride) :: rest =>
    if size = 1 then checkLoop prevSpan prevStride rest
    else if prevStride = (stride : Int) ∨ (stride : Int) < prevSpan then false
    else checkLoop ((size : Int) * stride) stride rest

/-- Flattened-dimension form of `check_non_overlap`: sort by stride
ascending (Python's stable `sorted` with key `x[1]`, realised here by the
stable `insertionSort`) and walk with `checkLoop`. -/
def checkFlat (l : List (Nat × Nat)) : Bool :=
  checkLoop (-1) (-1) (List.insertionSort (fun p q => p.2 ≤ q.2) l)

/-- Translation of `_MeshLayout.check_non_overlap`. -/
def checkNonOverlap (L : MeshLayout) : Bool :=
  checkFlat (sizesAndStrides L)

/-- Specification-side walk for `check_non_overlap` (spec section 4.7): over
the stride-sorted, size-1-skipped pairs, each pair must have a stride
different from its predecessor's stride and at least the predecessor's
span `size * stride`. -/
def chainOk : List (Nat × Nat) → Bool
  | [] => true
  | [_] => true
  | (s, d) :: (s2, d2) :: rest =>
    (d2 != d && decide (s * d ≤ d2)) && chainOk ((s2, d2) :: rest)

/-- Stride-ascending, size-1-free view of a flattened dimension list, shared
by the spec-side walk and the modelled `complement`. -/
def keptDims (l : List (Nat × Nat)) : List (Nat × Nat) :=
  (List.insertionSort (fun p q => p.2 ≤ q.2) l).filter fun p => p.1 != 1

/-- Sum-of-coordinate-times-stride enumeration over a flattened dimension
list, head dimension slowest; this is the recursive form of
`member_ranks` used by the proofs. -/
def ranksOf : List (Nat × Nat) → List Nat
  | [] => [0]
  | (s, d) :: rest => (List.range s).flatMap fun c => (ranksOf rest).map fun r => c * d + r

/-- Modelled from the spec: one step of `coalesce` (spec section 4.2, the
source imports `coalesce` from `torch.distributed._pycute`, which is not
in this tree).  A size-1 dimension is dropped; an outer dimension whose
stride equals the inner neighbour's `size * stride` merges into it. -/
def coalesceStep (p : Nat × Nat) (acc : List (Nat × Nat)) : List (Nat × Nat) :=
  match acc with
  | [] => if p.1 = 1 then [] else [p]
  | (s, d) :: rest =>
    if p.1 = 1 then acc
    else if p.2 = s * d then (p.1 * s, d) :: rest
    else p :: acc

/-- Modelled from the spec: `coalesce` on the flattened dimension list,
applying `coalesceStep` from the innermost (rightmost) dimension
outwards until no merge applies. -/
def coalesceFlat (l : List (Nat × Nat)) : List (Nat × Nat) :=
  l.foldr coalesceStep []

/-- Layout with one flat dimension per entry of the given list (sizes left,
strides right). -/
def fromDims (l : List (Nat × Nat)) : MeshLayout :=
  ⟨.node (l.map fun p => .leaf p.1), .node (l.map fun p => .leaf p.2)⟩

/-- Modelled from the spec: `_MeshLayout.coalesce` as a layout-to-layout
operation. -/
def coalesceL (L : MeshLayout) : MeshLayout :=
  fromDims (coalesceFlat (sizesAndStrides L))

/-- Modelled from the spec (section 4.4): the complement's gap dimensions.
Walking the sorted kept dimensions with accumulated span boundary `cur`,
each dimension `(s, d)` contributes the gap dimension `(d / cur, cur)`
and advances the boundary to `s * d`. -/
def gapDims : Nat → List (Nat × Nat) → List (Nat × Nat)
  | _, [] => []
  | cur, (s, d) :: rest => (d / cur, cur) :: gapDims (s * d) rest

/-- Accumulated span boundary after walking all kept dimensions. -/
def lastSpan : Nat → List (Nat × Nat) → Nat
  | cur, [] => cur
  | _, (s, d) :: rest => lastSpan (s * d) rest

/-- Modelled from the spec (section 4.4): `complement` over the flattened
dimensions.  It fails when the layout overlaps itself or when
`world_size` is not divisible by the total span; otherwise it returns the
gap dimensions plus the final dimension `(world_size / span, span)`,
simplified by `coalesce`. -/
def complementFlat (l : List (Nat × Nat)) (worldSize : Nat) : Option (List (Nat × Nat)) :=
  let kept := keptDims l
  let total := lastSpan 1 kept
  if checkFlat l ∧ total ∣ worldSize then
    some (coalesceFlat (gapDims 1 kept ++ [(worldSize / total, total)]))
  else none

/-- Modelled from the spec: `_MeshLayout.complement` as a layout-valued
operation. -/
def complementL (L : MeshLayout) (worldSize : Nat) : Option MeshLayout :=
  (complementFlat (sizesAndStrides L) worldSize).map fromDims

/-- Translation of `_MeshLayout.global_ranks`: one group per complement
member rank, each group being `member_ranks` shifted by that offset.  The
`Option` propagates failure of the modelled `complement`. -/
def globalRanksL (L : MeshLayout) (worldSize : Nat) : Option (List (List Nat)) :=
  (complementL L worldSize).map fun C =>
    (memberRanks C).map fun groupOffset =>
      (memberRanks L).map fun groupRank => groupOffset + groupRank

mutual

/-- Translation of the nested helper `scale_stride` of
`to_remapping_tensor`: strides smaller than the scale are kept, others
are divided by it. -/
def scaleStride (scale : Nat) : IntTuple → IntTuple
  | .leaf d => if d < scale then .leaf d else .leaf (d / scale)
  | .node ts => .node (scaleStrideList scale ts)

def scaleStrideList (scale : Nat) : List IntTuple → List IntTuple
  | [] => []
  | t :: ts => scaleStride scale t :: scaleStrideList scale ts

end

/-- Translation of `_MeshLayout.to_remapping_tensor` at the level of values
(the mesh tensor is its flattened list of entries; `view` only reshapes
and is dropped).  Returns the group table directly when the mesh holds
the consecutive integers, otherwise gathers (possibly stride-scaled)
logical indices through the mesh; an out-of-range gather index or a
failing complement yields `none`. -/
def toRemappingTensor (L : MeshLayout) (meshFlat : List Nat) (worldSize : Nat) :
    Option (List (List Nat)) :=
  match globalRanksL L meshFlat.length with
  | none => none
  | some pg =>
    if List.insertionSort (fun a b => a ≤ b) meshFlat = List.range meshFlat.length then
      some pg
    else
      let pg2 :=
        if meshFlat.length ≠ worldSize then
          globalRanksL ⟨L.shape, scaleStride (worldSize / meshFlat.length) L.stride⟩
            meshFlat.length
        else some pg
      match pg2 with
      | none => none
      | some p => p.mapM fun row => row.mapM fun i => meshFlat[i]?

/-- Divisibility chain on the kept dimensions that the amended round-trip
claim requires: each kept stride is a positive multiple of the
accumulated span boundary of its predecessors. -/
def goodChain : Nat → List (Nat × Nat) → Bool
  | _, [] => true
  | cur, (s, d) :: rest => (decide (cur ∣ d) && decide (0 < d)) && goodChain (s * d) rest

/-- Exact mixed-radix chain, outermost first: the list `(s, d) :: rest`
covers `T = s * d` addresses and `rest` covers exactly `d` of them, down
to the base boundary. -/
def isChainFrom : List (Nat × Nat) → Nat → Nat → Prop
  | [], t, base => t = base
  | (s, d) :: rest, t, base => t = s * d ∧ isChainFrom rest d base

/-- Descending interleaving of a kept dimension list with its complement's
gap dimensions and final dimension of repetition count `m`. -/
def descList : Nat → List (Nat × Nat) → Nat → List (Nat × Nat)
  | cur, [], m => [(m, cur)]
  | cur, (s, d) :: rest, m => descList (s * d) rest m ++ [(s, d), (d / cur, cur)]

/-- All pairwise sums, left list outer: the flattened form of the
two-level group construction of `global_ranks`. -/
def sumLists (A B : List Nat) : List Nat :=
  A.flatMap fun a => B.map fun b => a + b

/-- Example layout sizes=(4,), strides=(1,) used by claims C1, C4 and C7. -/
def exL41 : MeshLayout := ⟨.node [.leaf 4], .node [.leaf 1]⟩

/-- Complement of `exL41` at world size 8 as the spec states it:
sizes=(2,), strides=(4,). -/
def exC24 : MeshLayout := ⟨.node [.leaf 2], .node [.leaf 4]⟩

/-- Counterexample layout for the round-trip claim: sizes=(2,2),
strides=(5,2). -/
def cexL : MeshLayout := ⟨.node [.leaf 2, .leaf 2], .node [.leaf 5, .leaf 2]⟩

/-- Layout with a single flattened dimension of size `n` and stride 0. -/
def strideZeroL (n : Nat) : MeshLayout := ⟨.node [.leaf n], .node [.leaf 0]⟩

/-- Layout sizes=(2,), strides=(1,) used for the `to_remapping_tensor`
counterexample. -/
def exL21 : MeshLayout := ⟨.node [.leaf 2], .node [.leaf 1]⟩

instance (L : MeshLayout) : Decidable (validL L) := by
  unfold validL; infer_instance

theorem ranksOf_one_cons (d : Nat) (l : List (Nat × Nat)) :
    ranksOf ((1, d) :: l) = ranksOf l := by
  simp [ranksOf, List.range_succ]

theorem range_mul_flatMap {β : Type} (a s : Nat) (g : Nat → List β) :
    (List.range (a * s)).flatMap g =
      (List.range a).flatMap fun c => (List.range s).flatMap fun c2 => g (c * s + c2) := by
  induction a with
  | zero => simp
  | succ n ih =>
    rw [Nat.succ_mul, List.range_add, List.flatMap_append, ih, List.range_succ,
      List.flatMap_append]
    simp [List.flatMap_map]

theorem range_flatMap_map_range (s d : Nat) :
    ((List.range s).flatMap fun c => (List.range d).map fun r => c * d + r) =
      List.range (s * d) := by
  induction s with
  | zero => simp
  | succ n ih =>
    rw [List.range_succ, List.flatMap_append, ih, Nat.succ_mul, List.range_add]
    simp [List.flatMap_singleton]

theorem ranksOf_merge (a s d : Nat) (l : List (Nat × Nat)) :
    ranksOf ((a, s * d) :: (s, d) :: l) = ranksOf ((a * s, d) :: l) := by
  show ((List.range a).flatMap fun c =>
      (((List.range s).flatMap fun c2 => (ranksOf l).map fun r => c2 * d + r)).map
        fun r => c * (s * d) + r) = _
  rw [ranksOf, range_mul_flatMap]
  apply List.flatMap_congr
  intro c _
  rw [List.map_flatMap]
  apply List.flatMap_congr
  intro c2 _
  rw [List.map_map]
  apply List.map_congr_left
  intro r _
  simp only [Function.comp_apply]
  ring

theorem ranksOf_coalesceStep (p : Nat × Nat) (acc : List (Nat × Nat)) :
    ranksOf (coalesceStep p acc) = ranksOf (p :: acc) := by
  obtain ⟨a, e⟩ := p
  match acc with
  | [] =>
    by_cases h : a = 1
    · subst h; rw [ranksOf_one_cons]; simp [coalesceStep]
    · simp [coalesceStep, h]
  | (s, d) :: rest =>
    by_cases h : a = 1
    · subst h; rw [ranksOf_one_cons]; simp [coalesceStep]
    · by_cases h2 : e = s * d
      · subst h2
        rw [ranksOf_merge]
        simp [coalesceStep, h]
      · simp [coalesceStep, h, h2]

theorem ranksOf_coalesceFlat (l : List (Nat × Nat)) :
    ranksOf (coalesceFlat l) = ranksOf l := by
  induction l with
  | nil => rfl
  | cons p rest ih =>
    show ranksOf (coalesceStep p (coalesceFlat rest)) = _
    rw [ranksOf_coalesceStep]
    show ranksOf (p :: coalesceFlat rest) = ranksOf (p :: rest)
    obtain ⟨a, e⟩ := p
    simp only [ranksOf, ih]

theorem memberRanks_list_eq_ranksOf (szs sts : List Nat) (h : szs.length = sts.length) :
    ((prodRanges szs).map fun coord => dotZip coord sts) = ranksOf (szs.zip sts) := by
  induction szs generalizing sts with
  | nil =>
    match sts with
    | [] => rfl
    | _ :: _ => simp at h
  | cons s rest ih =>
    match sts with
    | [] => simp at h
    | t :: sts' =>
      simp only [List.length_cons, Nat.succ.injEq] at h
      show ((List.range s).flatMap fun c =>
          (prodRanges rest).map fun cs => c :: cs).map (fun coord => dotZip coord (t :: sts'))
          = ranksOf ((s, t) :: rest.zip sts')
      rw [List.map_flatMap, ranksOf]
      apply List.flatMap_congr
      intro c _
      rw [List.map_map, ← ih sts' h, List.map_map]
      apply List.map_congr_left
      intro cs _
      simp [dotZip]

theorem memberRanks_eq_ranksOf (L : MeshLayout) (h : validL L) :
    memberRanks L = ranksOf (sizesAndStrides L) :=
  memberRanks_list_eq_ranksOf (sizesOf L) (stridesOf L) h

theorem flattenTList_map_leaf {A : Type} (f : A → Nat) (l : List A) :
    flattenTList (l.map fun a => IntTuple.leaf (f a)) = l.map f := by
  induction l with
  | nil => rfl
  | cons a rest ih => simp [flattenTList, flattenT, ih]

theorem sizesOf_fromDims (l : List (Nat × Nat)) :
    sizesOf (fromDims l) = l.map Prod.fst := by
  show flattenT (.node (l.map fun p => .leaf p.1)) = _
  rw [flattenT, flattenTList_map_leaf (fun p => p.1) l]

theorem stridesOf_fromDims (l : List (Nat × Nat)) :
    stridesOf (fromDims l) = l.map Prod.snd := by
  show flattenT (.node (l.map fun p => .leaf p.2)) = _
  rw [flattenT, flattenTList_map_leaf (fun p => p.2) l]

theorem validL_fromDims (l : List (Nat × Nat)) : validL (fromDims l) := by
  unfold validL
  rw [sizesOf_fromDims, stridesOf_fromDims]
  simp

theorem sizesAndStrides_fromDims (l : List (Nat × Nat)) :
    sizesAndStrides (fromDims l) = l := by
  unfold sizesAndStrides
  rw [sizesOf_fromDims, stridesOf_fromDims]
  induction l with
  | nil => rfl
  | cons p rest ih => simp [List.zip]

theorem memberRanks_fromDims (l : List (Nat × Nat)) :
    memberRanks (fromDims l) = ranksOf l := by
  rw [memberRanks_eq_ranksOf _ (validL_fromDims l), sizesAndStrides_fromDims]

theorem prodRanges_length (szs : List Nat) :
    (prodRanges szs).length = szs.prod := by
  induction szs with
  | nil => rfl
  | cons s rest ih =>
    show ((List.range s).flatMap fun c => (prodRanges rest).map fun cs => c :: cs).length = _
    rw [List.length_flatMap]
    simp [Function.comp_def, List.length_map, ih, List.map_const', List.sum_replicate,
      smul_eq_mul, Nat.mul_comm]

theorem memberRanks_length (L : MeshLayout) :
    (memberRanks L).length = numel L := by
  unfold memberRanks numel
  rw [List.length_map, prodRanges_length]

theorem flatMap_perm_congr {α β : Type} (X : List α) (f g : α → List β)
    (h : ∀ a, (f a).Perm (g a)) : (X.flatMap f).Perm (X.flatMap g) := by
  induction X with
  | nil => rfl
  | cons a rest ih =>
    simp only [List.flatMap_cons]
    exact (h a).append ih

theorem permOfEq {α : Type} {l l2 : List α} (h : l = l2) : l.Perm l2 :=
  h ▸ List.Perm.refl l

theorem flatMap_append_distrib {α β : Type} (X : List α) (f g : α → List β) :
    (X.flatMap fun a => f a ++ g a).Perm (X.flatMap f ++ X.flatMap g) := by
  rw [← Multiset.coe_eq_coe, ← Multiset.coe_add, ← Multiset.coe_bind, ← Multiset.coe_bind,
    ← Multiset.coe_bind]
  simp only [← Multiset.coe_add]
  exact Multiset.bind_add _ _ _

theorem flatMap_swap {α β γ : Type} (X : List α) (Y : List β) (f : α → β → List γ) :
    (X.flatMap fun a => Y.flatMap fun b => f a b).Perm
      (Y.flatMap fun b => X.flatMap fun a => f a b) := by
  rw [← Multiset.coe_eq_coe, ← Multiset.coe_bind, ← Multiset.coe_bind]
  simp only [← Multiset.coe_bind]
  exact Multiset.bind_bind _ _

theorem ranksOf_cons_congr (p : Nat × Nat) {l l2 : List (Nat × Nat)}
    (h : (ranksOf l).Perm (ranksOf l2)) : (ranksOf (p :: l)).Perm (ranksOf (p :: l2)) := by
  obtain ⟨s, d⟩ := p
  simp only [ranksOf]
  exact flatMap_perm_congr _ _ _ fun c => h.map _

theorem ranksOf_swap (p q : Nat × Nat) (l : List (Nat × Nat)) :
    (ranksOf (p :: q :: l)).Perm (ranksOf (q :: p :: l)) := by
  obtain ⟨s, d⟩ := p
  obtain ⟨s2, d2⟩ := q
  simp only [ranksOf, List.map_flatMap, List.map_map]
  refine (flatMap_swap _ _ _).trans (permOfEq ?_)
  apply List.flatMap_congr
  intro c2 _
  apply List.flatMap_congr
  intro c _
  apply List.map_congr_left
  intro r _
  simp only [Function.comp_apply]
  ring

theorem ranksOf_perm {l l2 : List (Nat × Nat)} (h : l.Perm l2) :
    (ranksOf l).Perm (ranksOf l2) := by
  induction h with
  | nil => rfl
  | cons p _ ih => exact ranksOf_cons_congr p ih
  | swap p q rest => exact ranksOf_swap q p rest
  | trans _ _ ih1 ih2 => exact ih1.trans ih2

theorem ranksOf_filter_ne_one (l : List (Nat × Nat)) :
    (ranksOf (l.filter fun p => p.1 != 1)).Perm (ranksOf l) := by
  induction l with
  | nil => rfl
  | cons p rest ih =>
    obtain ⟨s, d⟩ := p
    by_cases h : s = 1
    · subst h
      rw [ranksOf_one_cons]
      simpa using ih
    · have hcond : ((s, d).1 != 1) = true := by simpa using h
      rw [List.filter_cons, if_pos hcond]
      exact ranksOf_cons_congr _ ih

theorem map_add_sumLists (x : Nat) (A B : List Nat) :
    (sumLists A B).map (fun r => x + r) = sumLists (A.map fun a => x + a) B := by
  unfold sumLists
  rw [List.map_flatMap, List.flatMap_map]
  apply List.flatMap_congr
  intro a _
  rw [List.map_map]
  apply List.map_congr_left
  intro b _
  simp only [Function.comp_apply]
  ring

theorem ranksOf_append (A B : List (Nat × Nat)) :
    ranksOf (A ++ B) = sumLists (ranksOf A) (ranksOf B) := by
  induction A with
  | nil =>
    simp only [List.nil_append, ranksOf, sumLists, List.flatMap_cons, List.flatMap_nil,
      List.append_nil]
    simp
  | cons p rest ih =>
    obtain ⟨s, d⟩ := p
    have e1 : ranksOf ((s, d) :: (rest ++ B)) =
        (List.range s).flatMap fun c => (ranksOf (rest ++ B)).map fun r => c * d + r := rfl
    have e2 : ranksOf ((s, d) :: rest) =
        (List.range s).flatMap fun c => (ranksOf rest).map fun r => c * d + r := rfl
    rw [List.cons_append, e1, ih, e2]
    show _ = ((List.range s).flatMap fun c => (ranksOf rest).map fun r => c * d + r).flatMap
      fun a => (ranksOf B).map fun b => a + b
    rw [List.flatMap_assoc]
    apply List.flatMap_congr
    intro c _
    rw [map_add_sumLists (c * d) (ranksOf rest) (ranksOf B), List.flatMap_map]
    unfold sumLists
    rw [List.flatMap_map]

theorem sumLists_perm_right (X : List Nat) {B B2 : List Nat} (h : B.Perm B2) :
    (sumLists X B).Perm (sumLists X B2) :=
  flatMap_perm_congr _ _ _ fun a => h.map _

theorem isChainFrom_append {A B : List (Nat × Nat)} {t mid base : Nat}
    (hA : isChainFrom A t mid) (hB : isChainFrom B mid base) :
    isChainFrom (A ++ B) t base := by
  induction A generalizing t with
  | nil =>
    have : t = mid := hA
    subst this
    exact hB
  | cons p rest ih =>
    obtain ⟨s, d⟩ := p
    obtain ⟨h1, h2⟩ := hA
    exact ⟨h1, ih h2⟩

theorem ranksOf_chain {l : List (Nat × Nat)} {t : Nat} (h : isChainFrom l t 1) :
    ranksOf l = List.range t := by
  induction l generalizing t with
  | nil =>
    have : t = 1 := h
    subst this
    rfl
  | cons p rest ih =>
    obtain ⟨s, d⟩ := p
    obtain ⟨h1, h2⟩ := h
    subst h1
    show ((List.range s).flatMap fun c => (ranksOf rest).map fun r => c * d + r) = _
    rw [ih h2, range_flatMap_map_range]

theorem goodChain_cons {cur s d : Nat} {rest : List (Nat × Nat)}
    (h : goodChain cur ((s, d) :: rest) = true) :
    cur ∣ d ∧ 0 < d ∧ goodChain (s * d) rest = true := by
  simp only [goodChain, Bool.and_eq_true, decide_eq_true_eq] at h
  exact ⟨h.1.1, h.1.2, h.2⟩

theorem descList_chain (kept : List (Nat × Nat)) :
    ∀ cur m, goodChain cur kept = true →
      isChainFrom (descList cur kept m) (m * lastSpan cur kept) cur := by
  induction kept with
  | nil =>
    intro cur m _
    exact ⟨rfl, rfl⟩
  | cons p rest ih =>
    intro cur m hg
    obtain ⟨s, d⟩ := p
    obtain ⟨hdvd, _, hg2⟩ := goodChain_cons hg
    show isChainFrom (descList (s * d) rest m ++ [(s, d), (d / cur, cur)]) _ _
    refine isChainFrom_append (ih (s * d) m hg2) ?_
    refine ⟨rfl, ?_⟩
    refine ⟨(Nat.div_mul_cancel hdvd).symm, ?_⟩
    rfl

theorem descList_perm (kept : List (Nat × Nat)) :
    ∀ cur m, (gapDims cur kept ++ (m, lastSpan cur kept) :: kept).Perm (descList cur kept m) := by
  induction kept with
  | nil =>
    intro cur m
    exact List.Perm.refl _
  | cons p rest ih =>
    intro cur m
    obtain ⟨s, d⟩ := p
    show ((d / cur, cur) :: (gapDims (s * d) rest ++ (m, lastSpan (s * d) rest) :: (s, d) :: rest)).Perm
      (descList (s * d) rest m ++ [(s, d), (d / cur, cur)])
    have h1 : (gapDims (s * d) rest ++ (m, lastSpan (s * d) rest) :: (s, d) :: rest).Perm
        ((s, d) :: (gapDims (s * d) rest ++ (m, lastSpan (s * d) rest) :: rest)) := by
      have := @List.perm_middle _ (s, d)
        (gapDims (s * d) rest ++ [(m, lastSpan (s * d) rest)]) rest
      simpa using this
    refine ((h1.cons _).trans ?_)
    have h2 : ((d / cur, cur) :: (s, d) :: (gapDims (s * d) rest ++
        (m, lastSpan (s * d) rest) :: rest)).Perm
        ((d / cur, cur) :: (s, d) :: descList (s * d) rest m) :=
      ((ih (s * d) m).cons _).cons _
    refine h2.trans ?_
    have h3 : ((d / cur, cur) :: (s, d) :: descList (s * d) rest m).Perm
        (descList (s * d) rest m ++ [(d / cur, cur), (s, d)]) := by
      have := @List.perm_append_comm _ [(d / cur, cur), (s, d)] (descList (s * d) rest m)
      simpa using this
    refine h3.trans (List.Perm.append_left _ ?_)
    exact List.Perm.swap _ _ _

theorem ranksOf_all_one {J : List (Nat × Nat)} (h : ∀ p ∈ J, p.1 = 1) :
    ranksOf J = [0] := by
  induction J with
  | nil => rfl
  | cons p rest ih =>
    obtain ⟨s, d⟩ := p
    have hs : s = 1 := h (s, d) (List.mem_cons_self _ _)
    subst hs
    rw [ranksOf_one_cons]
    exact ih fun q hq => h q (List.mem_cons_of_mem _ hq)

theorem checkLoop_filter (l : List (Nat × Nat)) :
    ∀ pS pStr, checkLoop pS pStr l = checkLoop pS pStr (l.filter fun p => p.1 != 1) := by
  induction l with
  | nil => intro pS pStr; rfl
  | cons p rest ih =>
    intro pS pStr
    obtain ⟨s, d⟩ := p
    by_cases h : s = 1
    · subst h
      have : ((1, d).1 != 1) = false := by simp
      rw [List.filter_cons, this]
      show checkLoop pS pStr rest = _
      simp only [Bool.false_eq_true, if_false]
      exact ih pS pStr
    · have hcond : ((s, d).1 != 1) = true := by simpa using h
      rw [List.filter_cons, hcond]
      show checkLoop pS pStr ((s, d) :: rest) = checkLoop pS pStr ((s, d) :: _)
      by_cases hfail : pStr = (d : Int) ∨ (d : Int) < pS
      · simp only [checkLoop, h, if_false, hfail, if_true, if_pos]
      · simp only [checkLoop, h, if_false, hfail, if_pos, if_neg, ite_false]
        exact ih _ _

theorem checkLoop_chain (l : List (Nat × Nat)) :
    ∀ (s d : Nat), (∀ p ∈ l, p.1 ≠ 1) →
      checkLoop ((s : Int) * (d : Int)) (d : Int) l = chainOk ((s, d) :: l) := by
  induction l with
  | nil => intro s d _; rfl
  | cons q rest ih =>
    intro s d hmem
    obtain ⟨s2, d2⟩ := q
    have hs2 : s2 ≠ 1 := hmem (s2, d2) (List.mem_cons_self _ _)
    show (if s2 = 1 then _ else if (d : Int) = (d2 : Int) ∨ (d2 : Int) < (s : Int) * d
        then false else checkLoop ((s2 : Int) * d2) d2 rest) =
      ((d2 != d && decide (s * d ≤ d2)) && chainOk ((s2, d2) :: rest))
    rw [if_neg hs2]
    by_cases hfail : (d : Int) = (d2 : Int) ∨ (d2 : Int) < (s : Int) * d
    · rw [if_pos hfail]
      rcases hfail with h1 | h2
      · have : d2 = d := by exact_mod_cast h1.symm
        simp [this]
      · have : d2 < s * d := by exact_mod_cast h2
        have : ¬ s * d ≤ d2 := by omega
        simp [this]
    · rw [if_neg hfail]
      push_neg at hfail
      obtain ⟨h1, h2⟩ := hfail
      have hne : d2 ≠ d := fun he => h1 (by exact_mod_cast he.symm)
      have hle : s * d ≤ d2 := by exact_mod_cast h2
      have hrest : ∀ p ∈ rest, p.1 ≠ 1 := fun p hp => hmem p (List.mem_cons_of_mem _ hp)
      rw [ih s2 d2 hrest]
      simp [hne, hle]

theorem checkFlat_eq_chainOk (l : List (Nat × Nat)) :
    checkFlat l = chainOk (keptDims l) := by
  unfold checkFlat keptDims
  rw [checkLoop_filter]
  generalize hk : (List.insertionSort (fun p q => p.2 ≤ q.2) l).filter (fun p => p.1 != 1) = k
  have hmem : ∀ p ∈ k, p.1 ≠ 1 := by
    intro p hp
    rw [← hk] at hp
    have := List.of_mem_filter hp
    simpa using this
  match k with
  | [] => rfl
  | (s, d) :: rest =>
    have hs : s ≠ 1 := hmem (s, d) (List.mem_cons_self _ _)
    show (if s = 1 then _ else if (-1 : Int) = (d : Int) ∨ (d : Int) < (-1 : Int)
        then false else checkLoop ((s : Int) * d) d rest) = _
    rw [if_neg hs, if_neg (by omega)]
    exact checkLoop_chain rest s d fun p hp => hmem p (List.mem_cons_of_mem _ hp)

theorem complementFlat_some {l : List (Nat × Nat)} {ws : Nat} {cd : List (Nat × Nat)}
    (h : complementFlat l ws = some cd) :
    checkFlat l = true ∧ lastSpan 1 (keptDims l) ∣ ws ∧
      cd = coalesceFlat (gapDims 1 (keptDims l) ++
        [(ws / lastSpan 1 (keptDims l), lastSpan 1 (keptDims l))]) := by
  have h2 : (if checkFlat l = true ∧ lastSpan 1 (keptDims l) ∣ ws then
      some (coalesceFlat (gapDims 1 (keptDims l) ++
        [(ws / lastSpan 1 (keptDims l), lastSpan 1 (keptDims l))]))
    else none) = some cd := h
  by_cases hc : checkFlat l = true ∧ lastSpan 1 (keptDims l) ∣ ws
  · rw [if_pos hc] at h2
    injection h2 with h3
    exact ⟨hc.1, hc.2, h3.symm⟩
  · rw [if_neg hc] at h2
    exact absurd h2 (by simp)

theorem globalRanksL_some {L : MeshLayout} {ws : Nat} {gr : List (List Nat)}
    (h : globalRanksL L ws = some gr) :
    ∃ cd, complementFlat (sizesAndStrides L) ws = some cd ∧
      gr = (memberRanks (fromDims cd)).map fun groupOffset =>
        (memberRanks L).map fun groupRank => groupOffset + groupRank := by
  unfold globalRanksL complementL at h
  cases hx : complementFlat (sizesAndStrides L) ws with
  | none => rw [hx] at h; simp at h
  | some cd =>
    rw [hx] at h
    simp only [Option.map_some', Option.some.injEq] at h
    exact ⟨cd, rfl, h.symm⟩

theorem round_trip_flat (L : MeshLayout) (ws : Nat) (gr : List (List Nat))
    (hv : validL L)
    (hgood : goodChain 1 (keptDims (sizesAndStrides L)) = true)
    (hgr : globalRanksL L ws = some gr) :
    gr.flatten.Perm (List.range ws) := by
  obtain ⟨cd, hcd, hgr2⟩ := globalRanksL_some hgr
  obtain ⟨hcf, hdvd, hcdval⟩ := complementFlat_some hcd
  have hflat : gr.flatten = sumLists (ranksOf cd) (ranksOf (sizesAndStrides L)) := by
    rw [hgr2, memberRanks_fromDims, memberRanks_eq_ranksOf L hv]
    rfl
  have hranks : ranksOf cd =
      ranksOf (gapDims 1 (keptDims (sizesAndStrides L)) ++
        [(ws / lastSpan 1 (keptDims (sizesAndStrides L)),
          lastSpan 1 (keptDims (sizesAndStrides L)))]) := by
    rw [hcdval, ranksOf_coalesceFlat]
  have hdimsperm : (ranksOf (sizesAndStrides L)).Perm
      (ranksOf (keptDims (sizesAndStrides L))) := by
    have hsort : (sizesAndStrides L).Perm
        (List.insertionSort (fun p q => p.2 ≤ q.2) (sizesAndStrides L)) :=
      (List.perm_insertionSort _ _).symm
    exact (ranksOf_perm hsort).trans (ranksOf_filter_ne_one _).symm
  have hperm1 : gr.flatten.Perm
      (sumLists (ranksOf cd) (ranksOf (keptDims (sizesAndStrides L)))) := by
    rw [hflat]
    exact sumLists_perm_right _ hdimsperm
  have hjoin : sumLists (ranksOf cd) (ranksOf (keptDims (sizesAndStrides L))) =
      ranksOf ((gapDims 1 (keptDims (sizesAndStrides L)) ++
        [(ws / lastSpan 1 (keptDims (sizesAndStrides L)),
          lastSpan 1 (keptDims (sizesAndStrides L)))]) ++ keptDims (sizesAndStrides L)) := by
    rw [ranksOf_append, hranks]
  have hperm2 : (ranksOf ((gapDims 1 (keptDims (sizesAndStrides L)) ++
      [(ws / lastSpan 1 (keptDims (sizesAndStrides L)),
        lastSpan 1 (keptDims (sizesAndStrides L)))]) ++ keptDims (sizesAndStrides L))).Perm
      (ranksOf (descList 1 (keptDims (sizesAndStrides L))
        (ws / lastSpan 1 (keptDims (sizesAndStrides L))))) := by
    apply ranksOf_perm
    have := descList_perm (keptDims (sizesAndStrides L)) 1
      (ws / lastSpan 1 (keptDims (sizesAndStrides L)))
    simpa using this
  have hchain : ranksOf (descList 1 (keptDims (sizesAndStrides L))
      (ws / lastSpan 1 (keptDims (sizesAndStrides L)))) =
      List.range (ws / lastSpan 1 (keptDims (sizesAndStrides L)) *
        lastSpan 1 (keptDims (sizesAndStrides L))) :=
    ranksOf_chain (descList_chain _ 1 _ hgood)
  have hws : ws / lastSpan 1 (keptDims (sizesAndStrides L)) *
      lastSpan 1 (keptDims (sizesAndStrides L)) = ws := Nat.div_mul_cancel hdvd
  rw [hws] at hchain
  refine hperm1.trans ?_
  rw [hjoin, ← hchain]
  exact hperm2

theorem flatMap_const_zero (n : Nat) :
    ((List.range n).flatMap fun _ => ([0] : List Nat)) = List.replicate n 0 := by
  induction n with
  | zero => rfl
  | succ k ih =>
    rw [List.range_succ, List.flatMap_append, ih, List.replicate_succ']
    simp

/-- C3: `member_ranks` returns the sums `coord_i * stride_i` over the
row-major Cartesian product of the flattened size ranges (leftmost
dimension slowest), its length equals `numel`, and the two literal
examples of the spec hold: sizes=(2,3) strides=(3,1) give [0,1,2,3,4,5]
and sizes=(2,3) strides=(1,2) give [0,2,4,1,3,5]. -/
theorem c3_member_ranks_enumeration (L : MeshLayout) :
    memberRanks L =
      ((prodRanges (flattenT L.shape)).map fun coord => dotZip coord (flattenT L.stride)) ∧
    (memberRanks L).length = numel L ∧
    memberRanks ⟨.node [.leaf 2, .leaf 3], .node [.leaf 3, .leaf 1]⟩ = [0, 1, 2, 3, 4, 5] ∧
    memberRanks ⟨.node [.leaf 2, .leaf 3], .node [.leaf 1, .leaf 2]⟩ = [0, 2, 4, 1, 3, 5] := by
  refine ⟨rfl, memberRanks_length L, by decide, by decide⟩

/-- C5: `check_non_overlap` returns false exactly when the spec-side walk
over the stride-sorted, size-1-skipped dimension pairs finds a pair whose
stride repeats the previous kept stride or falls below the previous kept
span; the function is total (it is a plain `Bool`-valued definition) and
the two literal examples hold: sizes=(2,3) strides=(6,1) pass and
sizes=(2,3) strides=(2,1) fail. -/
theorem c5_check_non_overlap_characterization (L : MeshLayout) :
    (checkNonOverlap L = false ↔ chainOk (keptDims (sizesAndStrides L)) = false) ∧
    checkNonOverlap ⟨.node [.leaf 2, .leaf 3], .node [.leaf 6, .leaf 1]⟩ = true ∧
    checkNonOverlap ⟨.node [.leaf 2, .leaf 3], .node [.leaf 2, .leaf 1]⟩ = false := by
  refine ⟨?_, by decide, by decide⟩
  unfold checkNonOverlap
  rw [checkFlat_eq_chainOk]

/-- C6 counterexample: the pair shape=((2,2),3), stride=(1,(2,4)) has
differing tree shapes but equal flattened lengths, and construction
succeeds instead of failing, refuting the claim that every
different-nesting pair is rejected. -/
theorem c6_shape_mismatch_counterexample :
    sameShape (.node [.node [.leaf 2, .leaf 2], .leaf 3])
        (.node [.leaf 1, .node [.leaf 2, .leaf 4]]) = false ∧
    (flattenT (.node [.node [.leaf 2, .leaf 2], .leaf 3])).length =
      (flattenT (.node [.leaf 1, .node [.leaf 2, .leaf 4]])).length ∧
    mkMeshLayout (.node [.node [.leaf 2, .leaf 2], .leaf 3])
        (.node [.leaf 1, .node [.leaf 2, .leaf 4]]) =
      some ⟨.node [.node [.leaf 2, .leaf 2], .leaf 3],
        .node [.leaf 1, .node [.leaf 2, .leaf 4]]⟩ := by
  refine ⟨rfl, rfl, rfl⟩

/-- C6 amended: construction fails exactly when shape and stride are both
tuples whose flattened leaf sequences have different lengths; nesting
structure is never compared. -/
theorem c6_construction_error_amended (a b : IntTuple) :
    mkMeshLayout a b = none ↔
      (isTupleT a = true ∧ isTupleT b = true ∧
        (flattenT a).length ≠ (flattenT b).length) := by
  unfold mkMeshLayout
  by_cases h : isTupleT a = true ∧ isTupleT b = true ∧ (flattenT a).length ≠ (flattenT b).length
  · rw [if_pos h]
    simp [h]
  · rw [if_neg h]
    simp [h]

/-- C7: the complement of the layout sizes=(4,) strides=(1,) at world size 8
is the layout sizes=(2,) strides=(4,), and the combined layout (self
together with its complement) addresses exactly the integers 0..7. -/
theorem c7_complement_example :
    complementL exL41 8 = some exC24 ∧
    List.insertionSort (fun a b => a ≤ b)
        (memberRanks (fromDims (sizesAndStrides exL41 ++ sizesAndStrides exC24))) =
      List.range 8 := by
  refine ⟨rfl, by decide⟩

/-- C10: a single flattened dimension of size n greater than 1 with stride 0
passes `check_non_overlap`, although `member_ranks` is the rank 0
repeated n times, so the layout addresses the same rank repeatedly. -/
theorem c10_stride_zero_check (n : Nat) (h : 1 < n) :
    checkNonOverlap (strideZeroL n) = true ∧
      memberRanks (strideZeroL n) = List.replicate n 0 := by
  have hne : n ≠ 1 := by omega
  constructor
  · show checkFlat [(n, 0)] = true
    show checkLoop (-1) (-1) (List.insertionSort (fun p q => p.2 ≤ q.2) [(n, 0)]) = true
    show checkLoop (-1) (-1) [(n, 0)] = true
    simp [checkLoop, hne]
  · show ((prodRanges [n]).map fun coord => dotZip coord [0]) = List.replicate n 0
    have h1 : prodRanges [n] = (List.range n).flatMap fun c => [[c]] := rfl
    rw [h1, List.map_flatMap]
    have h2 : ((List.range n).flatMap fun c => [dotZip [c] [0]]) =
        (List.range n).flatMap fun _ => [0] := by
      apply List.flatMap_congr
      intro c _
      simp [dotZip]
    rw [show ((List.range n).flatMap fun c => List.map (fun coord => dotZip coord [0]) [[c]]) =
        (List.range n).flatMap fun c => [dotZip [c] [0]] from rfl, h2]
    exact flatMap_const_zero n

/-- C10 witness at n = 3. -/
theorem c10_stride_zero_witness :
    1 < 3 ∧ (checkNonOverlap (strideZeroL 3) = true ∧
      memberRanks (strideZeroL 3) = List.replicate 3 0) :=
  ⟨by decide, c10_stride_zero_check 3 (by decide)⟩

/-- C2: for every valid layout (flattened shape and stride of equal length),
coalescing preserves `member_ranks` exactly, same integers in the same
order. -/
theorem c2_coalesce_preserves_member_ranks (L : MeshLayout) (hv : validL L) :
    memberRanks (coalesceL L) = memberRanks L := by
  unfold coalesceL
  rw [memberRanks_fromDims, ranksOf_coalesceFlat, memberRanks_eq_ranksOf L hv]

/-- C2 witness at sizes=(3,2), strides=(2,1), which coalesces to the single
dimension (6, 1). -/
theorem c2_coalesce_witness :
    validL ⟨.node [.leaf 3, .leaf 2], .node [.leaf 2, .leaf 1]⟩ ∧
      memberRanks (coalesceL ⟨.node [.leaf 3, .leaf 2], .node [.leaf 2, .leaf 1]⟩) =
        memberRanks ⟨.node [.leaf 3, .leaf 2], .node [.leaf 2, .leaf 1]⟩ :=
  ⟨by decide, c2_coalesce_preserves_member_ranks _ (by decide)⟩

/-- C4: whenever the complement (and hence `global_ranks`) succeeds, the
result has exactly one inner list per complement member rank, in that
order, each inner list being `member_ranks` shifted by the offset; the
outer length is the complement's `numel` and every inner length is the
layout's `numel`. -/
theorem c4_global_ranks_structure (L : MeshLayout) (ws : Nat) (C : MeshLayout)
    (gr : List (List Nat)) (hC : complementL L ws = some C)
    (hgr : globalRanksL L ws = some gr) :
    gr = ((memberRanks C).map fun groupOffset =>
        (memberRanks L).map fun groupRank => groupOffset + groupRank) ∧
      gr.length = numel C ∧ ∀ g ∈ gr, g.length = numel L := by
  have h1 : globalRanksL L ws = some ((memberRanks C).map fun groupOffset =>
      (memberRanks L).map fun groupRank => groupOffset + groupRank) := by
    unfold globalRanksL
    rw [hC, Option.map_some']
  rw [h1] at hgr
  injection hgr with h2
  refine ⟨h2.symm, ?_, ?_⟩
  · rw [h2.symm, List.length_map, memberRanks_length]
  · intro g hg
    rw [h2.symm] at hg
    obtain ⟨off, _, hoff⟩ := List.mem_map.mp hg
    rw [← hoff, List.length_map, memberRanks_length]

/-- C4 witness: layout sizes=(4,) strides=(1,) at world size 8, complement
sizes=(2,) strides=(4,), groups [[0,1,2,3],[4,5,6,7]]. -/
theorem c4_global_ranks_witness :
    ([[0, 1, 2, 3], [4, 5, 6, 7]] : List (List Nat)) =
      ((memberRanks exC24).map fun groupOffset =>
        (memberRanks exL41).map fun groupRank => groupOffset + groupRank) ∧
      ([[0, 1, 2, 3], [4, 5, 6, 7]] : List (List Nat)).length = numel exC24 ∧
      ∀ g ∈ ([[0, 1, 2, 3], [4, 5, 6, 7]] : List (List Nat)), g.length = numel exL41 :=
  c4_global_ranks_structure exL41 8 exC24 [[0, 1, 2, 3], [4, 5, 6, 7]] rfl rfl

/-- C1 counterexample: the layout sizes=(2,2), strides=(5,2) passes
`check_non_overlap`, its complement at world size 20 is defined (the
accumulated span 10 divides 20), yet the sorted flattened `global_ranks`
misses ranks: the claim fails as stated. -/
theorem c1_round_trip_counterexample :
    validL cexL ∧ checkNonOverlap cexL = true ∧
    lastSpan 1 (keptDims (sizesAndStrides cexL)) ∣ 20 ∧
    (globalRanksL cexL 20).isSome = true ∧
    (globalRanksL cexL 20).map
        (fun gr => List.insertionSort (fun a b => a ≤ b) gr.flatten) ≠
      some (List.range 20) := by
  refine ⟨by decide, by decide, by decide, by decide, by decide⟩

/-- C1 amended: the round trip holds under the additional hypothesis the
counterexample shows to be necessary: walking the stride-sorted,
size-1-skipped dimensions, every stride must be a positive multiple of
the accumulated span of its predecessors (`goodChain`).  Then for every
valid layout passing `check_non_overlap` and every world size at which
`global_ranks` is defined, sorting the flattened groups yields exactly
0, 1, ..., world_size - 1. -/
theorem c1_round_trip_amended (L : MeshLayout) (ws : Nat) (gr : List (List Nat))
    (hv : validL L) (hchk : checkNonOverlap L = true)
    (hgood : goodChain 1 (keptDims (sizesAndStrides L)) = true)
    (hgr : globalRanksL L ws = some gr) :
    List.insertionSort (fun a b => a ≤ b) gr.flatten = List.range ws := by
  have hperm : gr.flatten.Perm (List.range ws) := round_trip_flat L ws gr hv hgood hgr
  have h1 : (List.insertionSort (fun a b => a ≤ b) gr.flatten).Perm (List.range ws) :=
    (List.perm_insertionSort _ _).trans hperm
  exact List.eq_of_perm_of_sorted h1 (List.sorted_insertionSort _ _) (List.sorted_le_range ws)

/-- C1 witness: layout sizes=(4,) strides=(1,) at world size 8. -/
theorem c1_round_trip_witness :
    validL exL41 ∧ checkNonOverlap exL41 = true ∧
    goodChain 1 (keptDims (sizesAndStrides exL41)) = true ∧
    globalRanksL exL41 8 = some [[0, 1, 2, 3], [4, 5, 6, 7]] ∧
    List.insertionSort (fun a b => a ≤ b)
        ([[0, 1, 2, 3], [4, 5, 6, 7]] : List (List Nat)).flatten = List.range 8 :=
  ⟨by decide, by decide, by decide, by decide,
    c1_round_trip_amended exL41 8 [[0, 1, 2, 3], [4, 5, 6, 7]]
      (by decide) (by decide) (by decide) (by decide)⟩

/-- C9 counterexample: for the layout sizes=(2,) strides=(1,) and the
consecutive mesh [0, 1], `to_remapping_tensor` with world size 3 (not a
multiple of the mesh element count 2) returns the logical groups instead
of failing: the source contains no world-size divisibility check. -/
theorem c9_incompatible_world_size_counterexample :
    ¬ (2 ∣ 3) ∧ toRemappingTensor exL21 [0, 1] 3 = some [[0, 1]] := by
  refine ⟨by decide, rfl⟩

/-- C9 amended: `to_remapping_tensor` performs no divisibility validation on
`world_size`; whenever the mesh holds the consecutive integers
0..n-1 and `global_ranks` succeeds at the mesh element count, the logical
groups are returned for every `world_size` whatsoever. -/
theorem c9_no_divisibility_check_amended (L : MeshLayout) (meshFlat : List Nat)
    (ws : Nat) (pg : List (List Nat))
    (hmesh : List.insertionSort (fun a b => a ≤ b) meshFlat = List.range meshFlat.length)
    (hpg : globalRanksL L meshFlat.length = some pg) :
    toRemappingTensor L meshFlat ws = some pg := by
  unfold toRemappingTensor
  rw [hpg]
  simp [hmesh]

/-- C9 witness: the counterexample input, applied through the amended
theorem. -/
theorem c9_no_divisibility_check_witness :
    toRemappingTensor exL21 [0, 1] 5 = some [[0, 1]] :=
  c9_no_divisibility_check_amended exL21 [0, 1] 5 [[0, 1]] (by decide) (by decide)
